import Mathlib

/-!
Verification of the reactive state container ("Store") documented by this
repository (the svelte.technology guide, section "State management", plus the
derived design spec).  The repository itself ships only the documentation of
the Store; the implementation lives in the upstream package.  Every definition
below is therefore modelled from the wording of the spec and the documented
examples, and each claim is settled against this model.

Values: the spec distinguishes primitives (compared by value) from objects and
arrays (compared by reference identity only).  We model a primitive as an
integer payload, a composite value as an abstract reference identifier, and the
absence marker (JavaScript undefined) as a separate constructor.
-/

/-- Modelled from the spec: a stored value is a primitive (compared by value),
a reference to an object or array (identity only), or the absence marker. -/
inductive Val where
  | undef : Val
  | prim : Int → Val
  | ref : Nat → Val
deriving DecidableEq, Repr

/-- Modelled from the spec: read a property from the state table; names that
were never set read as the absence marker. -/
def lookupVal : List (String × Val) → String → Val
  | [], _ => Val.undef
  | p :: rest, n => if p.1 = n then p.2 else lookupVal rest n

/-- Modelled from the spec: write a property into the state table (overwrite on
key collision, append otherwise). -/
def setVal : List (String × Val) → String → Val → List (String × Val)
  | [], n, v => [(n, v)]
  | p :: rest, n, v => if p.1 = n then (n, v) :: rest else p :: setVal rest n v

/-- Modelled from the spec (equality rule for "changed"): primitives are
compared by value and suppress no-op notifications; objects and arrays are
always treated as changed when explicitly re-set. -/
def differs (old new : Val) : Bool :=
  match new with
  | Val.ref _ => true
  | _ => decide (old ≠ new)

/-- Modelled from the spec: a computed-property definition is an ordered list
of dependency names plus a deriving function applied positionally. -/
structure ComputedDef where
  deps : List String
  fn : List Val → Val

/-- Look up a computed-property definition by name (first match). -/
def lookupComputed (g : List (String × ComputedDef)) (n : String) : Option ComputedDef :=
  (g.find? (fun p => p.1 = n)).map (fun p => p.2)

/-- Dependency list of a name: empty for raw or absent properties. -/
def depsOf (g : List (String × ComputedDef)) (n : String) : List String :=
  match lookupComputed g n with
  | some d => d.deps
  | none => []

/-- Modelled from the spec (State Table applyRaw): merge a patch into the
table, returning the new table together with the subset of entries whose value
actually changed under the documented equality rule. -/
def applyRaw : List (String × Val) → List (String × Val) →
    List (String × Val) × List (String × Val)
  | st, [] => (st, [])
  | st, (n, v) :: rest =>
    let st1 := setVal st n v
    let out := applyRaw st1 rest
    if differs (lookupVal st n) v then (out.1, (n, v) :: out.2) else out

/-- Modelled from the spec (Dependency Graph): the transitive
"reads-directly-or-indirectly" relation from a computed property to the
properties its evaluation depends on. -/
inductive DependsOn (g : List (String × ComputedDef)) : String → String → Prop where
  | direct {c : String} {d : ComputedDef} {x : String} :
      lookupComputed g c = some d → x ∈ d.deps → DependsOn g c x
  | step {c : String} {d : ComputedDef} {x y : String} :
      lookupComputed g c = some d → x ∈ d.deps → DependsOn g x y → DependsOn g c y

/-- Modelled from the spec (dependentsOf, read top-down): fueled decision of
whether the evaluation of a name transitively reads one of the seed names. -/
def dependsOnAnyB (g : List (String × ComputedDef)) :
    Nat → String → List String → Bool
  | 0, _, _ => false
  | fuel + 1, n, seeds =>
    match lookupComputed g n with
    | none => false
    | some d => d.deps.any (fun x => seeds.contains x || dependsOnAnyB g fuel x seeds)

/-- Modelled from the spec (evaluationOrder): fueled dependency depth of a
name; raw properties have depth zero. -/
def rankOf (g : List (String × ComputedDef)) : Nat → String → Nat
  | 0, _ => 0
  | fuel + 1, n =>
    match lookupComputed g n with
    | none => 0
    | some d => 1 + (d.deps.map (rankOf g fuel)).foldl max 0

/-- Fuel large enough to stabilize every fueled traversal of the graph. -/
def fuelOf (g : List (String × ComputedDef)) : Nat := g.length + 2

/-- Modelled from the spec: the dependency relation must be acyclic.  We state
acyclicity through a rank function that strictly decreases along dependency
edges and is bounded by the number of computed properties. -/
def RankOK (g : List (String × ComputedDef)) (r : String → Nat) : Prop :=
  ∀ p ∈ g, r p.1 ≤ g.length ∧
    ∀ x ∈ p.2.deps, (lookupComputed g x).isSome = true → r x < r p.1

/-- Modelled from the spec (evaluationOrder): insert a name into a list sorted
by ascending dependency depth. -/
def insertRank (key : String → Nat) (x : String) : List String → List String
  | [] => [x]
  | y :: ys => if key x ≤ key y then x :: y :: ys else y :: insertRank key x ys

/-- Modelled from the spec (evaluationOrder): sort names by ascending
dependency depth, so every computed property is evaluated only after all of
its dependencies are current. -/
def sortByRank (key : String → Nat) : List String → List String
  | [] => []
  | x :: xs => insertRank key x (sortByRank key xs)

/-- Modelled from the spec (Computation Engine): evaluate one computed
property against the current table, writing the result back. -/
def recomputeStep (g : List (String × ComputedDef)) (st : List (String × Val))
    (c : String) : List (String × Val) :=
  match lookupComputed g c with
  | none => st
  | some d => setVal st c (d.fn (d.deps.map (lookupVal st)))

/-- Modelled from the spec (Computation Engine): evaluate the scheduled
computed properties in evaluation order, each seeing the results of the
previous ones. -/
def recomputeAll (g : List (String × ComputedDef)) (st : List (String × Val))
    (order : List String) : List (String × Val) :=
  order.foldl (recomputeStep g) st

/-- A schedule is well ordered when no name is evaluated before one of the
properties it reads: at every split, the dependencies of the split point occur
neither at it nor after it. -/
def GoodOrder (g : List (String × ComputedDef)) (order : List String) : Prop :=
  ∀ l1 c l2, order = l1 ++ c :: l2 → ∀ d ∈ depsOf g c, d ∉ l2 ∧ d ≠ c

/-- Modelled from the spec (dependentsOf + evaluationOrder): the computed
properties downstream of the changed seed names, scheduled in topological
(ascending dependency depth) order. -/
def affectedOrder (g : List (String × ComputedDef)) (seeds : List String) :
    List String :=
  sortByRank (rankOf g (fuelOf g)) ((g.map Prod.fst).filter
    (fun n => dependsOnAnyB g (fuelOf g) n seeds))

/-- Modelled from the spec (Store): state table, computed-property
definitions in registration order, per-property subscriber list, whole-state
subscriber list, and a counter handing out fresh subscription identifiers. -/
structure Store where
  state : List (String × Val)
  computed : List (String × ComputedDef)
  observers : List (String × Nat)
  handlers : List Nat
  nextId : Nat

/-- Modelled from the spec: a callback invocation during one mutation cycle.
An observe invocation carries the observed name, the subscription identifier
and the new value; an onchange invocation carries the subscription identifier,
the full state snapshot and the change set. -/
inductive Event where
  | observeCall : String → Nat → Val → Event
  | onchangeCall : Nat → List (String × Val) → List (String × Val) → Event
deriving DecidableEq, Repr

/-- The subscription identifier a dispatched invocation belongs to. -/
def Event.cb : Event → Nat
  | Event.observeCall _ id _ => id
  | Event.onchangeCall id _ _ => id

/-- Whether an invocation is a per-property observe call. -/
def isObserveEvent : Event → Bool
  | Event.observeCall _ _ _ => true
  | Event.onchangeCall _ _ _ => false

/-- Modelled from the spec (error taxonomy of the Store). -/
inductive StoreError where
  | computedPropertyWrite : StoreError
  | cyclicDependency : StoreError
  | duplicateDefinition : StoreError
  | observerCallback : List Nat → StoreError
deriving DecidableEq, Repr

/-- Modelled from the spec: the outcome of one mutation cycle — the updated store,
the change set, the names whose derive function was invoked, and the callback
invocations dispatched for the cycle (observe calls first, onchange after). -/
structure SetOut where
  store : Store
  changed : List (String × Val)
  recomputed : List String
  events : List Event

/-- Modelled from the spec: `get` reads the current value of a property. -/
def Store.get (s : Store) (n : String) : Val := lookupVal s.state n

/-- Modelled from the spec: create a store with some (optional) initial data. -/
def mkStore (data : Option (List (String × Val))) : Store :=
  { state := data.getD [], computed := [], observers := [], handlers := [], nextId := 0 }

/-- Modelled from the spec (Observer Registry): the observe invocations of one
cycle — each registered per-property subscriber whose name is in the change
set is called with the new value, in registration order. -/
def observeEvents (obs : List (String × Nat)) (changedNames : List String)
    (st : List (String × Val)) : List Event :=
  obs.filterMap (fun e =>
    if changedNames.contains e.1 then some (Event.observeCall e.1 e.2 (lookupVal st e.1))
    else none)

/-- Modelled from the spec (Observer Registry): the onchange invocations of
one cycle — every whole-state subscriber receives the state snapshot and the
change set, after all per-property calls. -/
def onchangeEvents (handlers : List Nat) (st : List (String × Val))
    (changes : List (String × Val)) : List Event :=
  handlers.map (fun id => Event.onchangeCall id st changes)

/-- Modelled from the spec (Store Facade, mutation cycle): given the raw-write
result, recompute the affected computed properties in evaluation order, form
the change set as raw changes plus recomputed entries that differ from their
pre-cycle value, and dispatch observe then onchange invocations. -/
def runCycle (s : Store) (st1 : List (String × Val))
    (changedRaw : List (String × Val)) : SetOut :=
  let order := affectedOrder s.computed (changedRaw.map Prod.fst)
  let st2 := recomputeAll s.computed st1 order
  let changes := changedRaw ++
    (order.filter (fun c => differs (lookupVal st1 c) (lookupVal st2 c))).map
      (fun c => (c, lookupVal st2 c))
  { store := { s with state := st2 }
    changed := changes
    recomputed := order
    events := observeEvents s.observers (changes.map Prod.fst) st2
      ++ onchangeEvents s.handlers st2 changes }

/-- Modelled from the spec (Store Facade `set`, success path): apply the patch
to the state table; if nothing actually changed, return with no further work,
otherwise run the full mutation cycle. -/
def doSet (s : Store) (patch : List (String × Val)) : SetOut :=
  let ar := applyRaw s.state patch
  if ar.2.isEmpty then
    { store := { s with state := ar.1 }, changed := [], recomputed := [], events := [] }
  else runCycle s ar.1 ar.2

/-- Modelled from the spec (Store Facade `set`): writing to a name registered
as computed is rejected before any mutation is applied. -/
def Store.set (s : Store) (patch : List (String × Val)) : Except StoreError SetOut :=
  if patch.any (fun p => (lookupComputed s.computed p.1).isSome) then
    Except.error StoreError.computedPropertyWrite
  else Except.ok (doSet s patch)

/-- Modelled from the spec: `observe` registers a per-property subscriber and
invokes it once immediately with the current value, returning the subscription
identifier usable as an unsubscribe capability. -/
def Store.observe (s : Store) (n : String) : Store × Nat × Event :=
  ({ s with observers := s.observers ++ [(n, s.nextId)], nextId := s.nextId + 1 },
    s.nextId,
    Event.observeCall n s.nextId (lookupVal s.state n))

/-- Modelled from the spec: `onchange` registers a whole-state subscriber with
no initial invocation, returning the subscription identifier. -/
def Store.onchange (s : Store) : Store × Nat :=
  ({ s with handlers := s.handlers ++ [s.nextId], nextId := s.nextId + 1 }, s.nextId)

/-- Modelled from the spec: cancel a subscription by its identifier. -/
def Store.unsubscribe (s : Store) (id : Nat) : Store :=
  { s with observers := s.observers.filter (fun e => e.2 ≠ id),
           handlers := s.handlers.filter (fun h => h ≠ id) }

/-- Modelled from the spec: `compute` registers a computed property unless the
name is already defined (raw or computed) or the new edges would create a
cycle, then performs the initial evaluation without notifying observers. -/
def Store.compute (s : Store) (n : String) (deps : List String) (fn : List Val → Val) :
    Except StoreError Store :=
  if (lookupComputed s.computed n).isSome
      || (s.state.find? (fun p => p.1 = n)).isSome then
    Except.error StoreError.duplicateDefinition
  else if deps.any (fun d => decide (d = n)
      || dependsOnAnyB s.computed (fuelOf s.computed) d [n]) then
    Except.error StoreError.cyclicDependency
  else
    let g1 := s.computed ++ [(n, { deps := deps, fn := fn })]
    Except.ok { s with
      computed := g1
      state := setVal s.state n (fn (deps.map (lookupVal s.state))) }

/-- Modelled from the spec (observer failure isolation): dispatch every
scheduled invocation in order; a failing callback is recorded and delivery
continues with the remaining callbacks of the same cycle. -/
def runDispatch (failing : Nat → Bool) : List Event → List Event × List Nat
  | [] => ([], [])
  | e :: rest =>
    let r := runDispatch failing rest
    (e :: r.1, if failing e.cb then e.cb :: r.2 else r.2)

/-- Modelled from the spec: `set` followed by callback dispatch; collected
callback failures are re-raised once to the caller after the dispatch pass
completes. -/
def setChecked (failing : Nat → Bool) (s : Store) (patch : List (String × Val)) :
    Except StoreError (SetOut × List Event) :=
  match Store.set s patch with
  | Except.error err => Except.error err
  | Except.ok out =>
    let d := runDispatch failing out.events
    if d.2.isEmpty then Except.ok (out, d.1)
    else Except.error (StoreError.observerCallback d.2)

/-- Modelled from the spec (state-snapshot invariant): every computed
the current value of every computed property equals its deriving function applied to the current
values of its declared dependencies. -/
def Invariant (s : Store) : Prop :=
  ∀ p ∈ s.computed, lookupVal s.state p.1 = p.2.fn (p.2.deps.map (lookupVal s.state))

/-- All subscription identifiers ever handed out are below the counter. -/
def FreshIds (s : Store) : Prop :=
  (∀ e ∈ s.observers, e.2 < s.nextId) ∧ (∀ h ∈ s.handlers, h < s.nextId)

instance (s : Store) : Decidable (Invariant s) := by
  unfold Invariant
  infer_instance

instance (s : Store) : Decidable (FreshIds s) := by
  unfold FreshIds
  infer_instance

/-- Convert a stored value to an integer: the payload for primitives, zero
otherwise.  Used by the documented example derive functions. -/
def Val.toInt : Val → Int
  | Val.prim n => n
  | _ => 0

/-- The example derive function: the product of the dependency values (used
as the three-factor volume and the two-factor mass function). -/
def mulVals (vs : List Val) : Val :=
  Val.prim (vs.foldl (fun a v => a * v.toInt) 1)

/-- A trivial derive function for the cycle-rejection example. -/
def oneFn : List Val → Val := fun _ => Val.prim 1

/-- Rank witness for the example dependency graphs. -/
def rankW : String → Nat :=
  fun n => if n = "volume" then 1 else if n = "mass" then 2 else 0

/-- The documented computed-property example store: raw width, height, depth
and density. -/
def exA0 : Store := mkStore (some [("width", Val.prim 10), ("height", Val.prim 10),
  ("depth", Val.prim 10), ("density", Val.prim 3)])

/-- After registering the computed volume. -/
def exA1 : Store :=
  (Store.compute exA0 "volume" ["width", "height", "depth"] mulVals).toOption.getD exA0

/-- After the documented write of width twenty. -/
def exA2 : Store := (doSet exA1 [("width", Val.prim 20)]).store

/-- After the late registration of the computed mass. -/
def exA3 : Store :=
  (Store.compute exA2 "mass" ["volume", "density"] mulVals).toOption.getD exA2

/-- Cascade example: mass registered before the mutation. -/
def exC2 : Store :=
  (Store.compute exA1 "mass" ["volume", "density"] mulVals).toOption.getD exA1

/-- Cascade example with an onchange subscriber. -/
def exC3 : Store := (Store.onchange exC2).1

/-- The cascade example mutation cycle. -/
def exC4 : SetOut := doSet exC3 [("width", Val.prim 2)]

/-- The documented onchange example store (foo, bar, baz, qux). -/
def exB0 : Store := (doSet (mkStore (some [])) [("foo", Val.prim 1), ("bar", Val.prim 2),
  ("baz", Val.prim 3), ("qux", Val.prim 4)]).store

/-- The onchange example store with its subscriber registered. -/
def exB1 : Store := (Store.onchange exB0).1

/-- The documented conservative object re-set example store. -/
def exF0 : Store := (doSet (mkStore (some [])) [("object", Val.ref 1)]).store

/-- The object re-set example with its onchange subscriber. -/
def exF1 : Store := (Store.onchange exF0).1

/-- First re-set of the identical object reference. -/
def exF2 : SetOut := doSet exF1 [("object", Val.ref 1)]

/-- Observe example store. -/
def exW : Store := mkStore (some [("foo", Val.prim 1)])

/-- Observer isolation example: a store with property x. -/
def exD0 : Store := mkStore (some [("x", Val.prim 0)])

/-- Observer isolation example: first subscriber on x. -/
def exD1 : Store := (Store.observe exD0 "x").1

/-- Observer isolation example: second subscriber on x. -/
def exD2 : Store := (Store.observe exD1 "x").1

/-- Failure model for the isolation example: the first subscriber raises. -/
def failD : Nat → Bool := fun i => i == 0

/-- Cycle example: a computed property b forward-referencing the name a. -/
def exG1 : Store :=
  (Store.compute (mkStore (some [])) "b" ["a"] oneFn).toOption.getD (mkStore (some []))

instance (g : List (String × ComputedDef)) (r : String → Nat) : Decidable (RankOK g r) := by
  unfold RankOK
  infer_instance

theorem lookupVal_setVal (st : List (String × Val)) (n m : String) (v : Val) :
    lookupVal (setVal st n v) m = if n = m then v else lookupVal st m := by
  induction st with
  | nil => simp [setVal, lookupVal]
  | cons p rest ih =>
    by_cases hp : p.1 = n
    · simp only [setVal, if_pos hp, lookupVal]
      by_cases hnm : n = m
      · simp [hnm]
      · have hpm : ¬ p.1 = m := by rw [hp]; exact hnm
        simp [hnm, hpm]
    · simp only [setVal, if_neg hp, lookupVal]
      by_cases hm : p.1 = m
      · have hnm : ¬ n = m := fun hh => hp (by rw [hh, ← hm])
        simp [hm, hnm]
      · rw [if_neg hm, ih]
        by_cases hnm : n = m
        · simp [hnm]
        · simp [hnm, hm]

theorem lookupVal_setVal_self (st : List (String × Val)) (n : String) (v : Val) :
    lookupVal (setVal st n v) n = v := by
  rw [lookupVal_setVal]; simp

theorem lookupVal_setVal_ne (st : List (String × Val)) (n m : String) (v : Val)
    (h : m ≠ n) : lookupVal (setVal st n v) m = lookupVal st m := by
  rw [lookupVal_setVal, if_neg (fun hh => h hh.symm)]

theorem differs_ref (old : Val) (i : Nat) : differs old (Val.ref i) = true := rfl

theorem differs_self_prim (k : Int) : differs (Val.prim k) (Val.prim k) = false := by
  simp [differs]

theorem eq_of_differs_eq_false (old new : Val) (h : differs old new = false) :
    old = new := by
  cases new with
  | undef => simpa [differs] using h
  | prim k => simpa [differs] using h
  | ref i => simp [differs] at h

theorem lookupComputed_mem {g : List (String × ComputedDef)} {n : String}
    {d : ComputedDef} (h : lookupComputed g n = some d) : (n, d) ∈ g := by
  unfold lookupComputed at h
  cases hf : g.find? (fun p => p.1 = n) with
  | none => rw [hf] at h; simp at h
  | some p =>
    rw [hf] at h
    simp at h
    have hmem := List.mem_of_find?_eq_some hf
    have hp := List.find?_some hf
    simp at hp
    have : (n, d) = p := by
      cases p with
      | mk a b => simp at hp ⊢; exact ⟨hp.symm, h.symm⟩
    rw [this]
    exact hmem

theorem lookupComputed_of_mem_nodup {g : List (String × ComputedDef)}
    (hnd : (g.map Prod.fst).Nodup) {n : String} {d : ComputedDef}
    (hm : (n, d) ∈ g) : lookupComputed g n = some d := by
  induction g with
  | nil => simp at hm
  | cons p rest ih =>
    rw [List.map_cons, List.nodup_cons] at hnd
    rcases List.mem_cons.mp hm with h | h
    · rw [← h]
      simp [lookupComputed, List.find?]
    · by_cases hp : p.1 = n
      · exfalso
        have hn : n ∈ rest.map Prod.fst := List.mem_map.mpr ⟨(n, d), h, rfl⟩
        rw [← hp] at hn
        exact hnd.1 hn
      · have hrec := ih hnd.2 h
        unfold lookupComputed at hrec ⊢
        have hcons : List.find? (fun q : String × ComputedDef => decide (q.1 = n)) (p :: rest)
            = List.find? (fun q : String × ComputedDef => decide (q.1 = n)) rest := by
          rw [List.find?_cons_of_neg]
          simp [hp]
        rw [hcons]
        exact hrec

theorem isComputed_of_mem_keys {g : List (String × ComputedDef)} {n : String}
    (h : n ∈ g.map Prod.fst) : (lookupComputed g n).isSome = true := by
  rcases List.mem_map.mp h with ⟨p, hp, hfst⟩
  have hex : ∃ x ∈ g, (fun q : String × ComputedDef => decide (q.1 = n)) x = true :=
    ⟨p, hp, by simp [hfst]⟩
  unfold lookupComputed
  cases hf : g.find? (fun q : String × ComputedDef => decide (q.1 = n)) with
  | none =>
    exfalso
    have hs := List.find?_isSome.mpr hex
    rw [hf] at hs
    simp at hs
  | some q => simp [hf]

theorem applyRaw_changed_subset (st patch : List (String × Val)) :
    ∀ y ∈ (applyRaw st patch).2.map Prod.fst, y ∈ patch.map Prod.fst := by
  induction patch generalizing st with
  | nil => intro y hy; simp [applyRaw] at hy
  | cons p rest ih =>
    intro y hy
    cases p with
    | mk n v =>
      simp only [applyRaw] at hy
      by_cases hd : differs (lookupVal st n) v
      · rw [if_pos hd] at hy
        simp only [List.map_cons, List.mem_cons] at hy
        rcases hy with hy | hy
        · simp [hy]
        · simp only [List.map_cons, List.mem_cons]
          exact Or.inr (ih (setVal st n v) y hy)
      · rw [if_neg hd] at hy
        simp only [List.map_cons, List.mem_cons]
        exact Or.inr (ih (setVal st n v) y hy)

theorem applyRaw_frame (st patch : List (String × Val)) :
    ∀ y, y ∉ (applyRaw st patch).2.map Prod.fst →
      lookupVal (applyRaw st patch).1 y = lookupVal st y := by
  induction patch generalizing st with
  | nil => intro y _; simp [applyRaw]
  | cons p rest ih =>
    intro y hy
    cases p with
    | mk n v =>
      simp only [applyRaw] at hy ⊢
      by_cases hd : differs (lookupVal st n) v
      · rw [if_pos hd] at hy ⊢
        simp only [List.map_cons, List.mem_cons, not_or] at hy
        have := ih (setVal st n v) y hy.2
        rw [this, lookupVal_setVal_ne st n y v hy.1]
      · rw [if_neg hd] at hy ⊢
        have heq : v = lookupVal st n := (eq_of_differs_eq_false _ _ (by
          revert hd; cases differs (lookupVal st n) v <;> simp)).symm
        have hall : ∀ z, lookupVal (setVal st n v) z = lookupVal st z := by
          intro z
          rw [lookupVal_setVal]
          by_cases hz : n = z
          · rw [if_pos hz, heq, hz]
          · rw [if_neg hz]
        rw [ih (setVal st n v) y hy, hall]

theorem applyRaw_frame_patch (st patch : List (String × Val)) :
    ∀ y, y ∉ patch.map Prod.fst →
      lookupVal (applyRaw st patch).1 y = lookupVal st y := by
  intro y hy
  exact applyRaw_frame st patch y (fun h => hy (applyRaw_changed_subset st patch y h))

theorem applyRaw_noop (st : List (String × Val)) (x : String) (v : Val)
    (hd : differs (lookupVal st x) v = false) :
    applyRaw st [(x, v)] = (setVal st x v, []) := by
  simp [applyRaw, hd]

theorem DependsOn.isComputed {g : List (String × ComputedDef)} {a b : String}
    (h : DependsOn g a b) : (lookupComputed g a).isSome = true := by
  cases h with
  | direct hl _ => rw [hl]; rfl
  | step hl _ _ => rw [hl]; rfl

theorem rankOK_lookup {g : List (String × ComputedDef)} {r : String → Nat}
    (hr : RankOK g r) {c : String} {d : ComputedDef}
    (h : lookupComputed g c = some d) :
    r c ≤ g.length ∧ ∀ x ∈ d.deps, (lookupComputed g x).isSome = true → r x < r c :=
  hr (c, d) (lookupComputed_mem h)

theorem dependsOnAnyB_noncomputed {g : List (String × ComputedDef)} {n : String}
    (h : lookupComputed g n = none) (fuel : Nat) (seeds : List String) :
    dependsOnAnyB g fuel n seeds = false := by
  cases fuel with
  | zero => rfl
  | succ m => simp [dependsOnAnyB, h]

theorem rankOf_noncomputed {g : List (String × ComputedDef)} {n : String}
    (h : lookupComputed g n = none) (fuel : Nat) : rankOf g fuel n = 0 := by
  cases fuel with
  | zero => rfl
  | succ m => simp [rankOf, h]

theorem list_any_congr {α : Type} {l : List α} {p q : α → Bool}
    (h : ∀ a ∈ l, p a = q a) : l.any p = l.any q := by
  induction l with
  | nil => rfl
  | cons a rest ih =>
    simp only [List.any_cons]
    rw [h a (List.mem_cons_self a rest), ih (fun b hb => h b (List.mem_cons_of_mem a hb))]

theorem list_map_congr {α β : Type} {l : List α} {p q : α → β}
    (h : ∀ a ∈ l, p a = q a) : l.map p = l.map q := by
  induction l with
  | nil => rfl
  | cons a rest ih =>
    simp only [List.map_cons]
    rw [h a (List.mem_cons_self a rest), ih (fun b hb => h b (List.mem_cons_of_mem a hb))]

theorem dependsOnAnyB_stable {g : List (String × ComputedDef)} {r : String → Nat}
    (hr : RankOK g r) (seeds : List String) :
    ∀ (k : Nat) (n : String) (f1 f2 : Nat), r n ≤ k → r n < f1 → r n < f2 →
      dependsOnAnyB g f1 n seeds = dependsOnAnyB g f2 n seeds := by
  intro k
  induction k with
  | zero =>
    intro n f1 f2 hk h1 h2
    cases f1 with
    | zero => omega
    | succ m1 =>
      cases f2 with
      | zero => omega
      | succ m2 =>
        simp only [dependsOnAnyB]
        cases hl : lookupComputed g n with
        | none => rfl
        | some d =>
          apply list_any_congr
          intro x hx
          have hnc : lookupComputed g x = none := by
            cases hlx : lookupComputed g x with
            | none => rfl
            | some dx =>
              exfalso
              have := (rankOK_lookup hr hl).2 x hx (by rw [hlx]; rfl)
              omega
          rw [dependsOnAnyB_noncomputed hnc, dependsOnAnyB_noncomputed hnc]
  | succ k ih =>
    intro n f1 f2 hk h1 h2
    cases f1 with
    | zero => omega
    | succ m1 =>
      cases f2 with
      | zero => omega
      | succ m2 =>
        simp only [dependsOnAnyB]
        cases hl : lookupComputed g n with
        | none => rfl
        | some d =>
          apply list_any_congr
          intro x hx
          cases hlx : lookupComputed g x with
          | none => rw [dependsOnAnyB_noncomputed hlx, dependsOnAnyB_noncomputed hlx]
          | some dx =>
            have hlt := (rankOK_lookup hr hl).2 x hx (by rw [hlx]; rfl)
            rw [ih x m1 m2 (by omega) (by omega) (by omega)]

theorem dependsOnAnyB_sound {g : List (String × ComputedDef)} (seeds : List String) :
    ∀ (fuel : Nat) (n : String), dependsOnAnyB g fuel n seeds = true →
      ∃ sd ∈ seeds, DependsOn g n sd := by
  intro fuel
  induction fuel with
  | zero => intro n h; simp [dependsOnAnyB] at h
  | succ m ih =>
    intro n h
    simp only [dependsOnAnyB] at h
    cases hl : lookupComputed g n with
    | none => rw [hl] at h; simp at h
    | some d =>
      rw [hl] at h
      rcases List.any_eq_true.mp h with ⟨x, hx, hpx⟩
      rcases Bool.or_eq_true_iff.mp hpx with hc | hrec
      · exact ⟨x, List.elem_iff.mp hc, DependsOn.direct hl hx⟩
      · rcases ih x hrec with ⟨sd, hsd, hdep⟩
        exact ⟨sd, hsd, DependsOn.step hl hx hdep⟩

theorem dependsOnAnyB_complete {g : List (String × ComputedDef)} {r : String → Nat}
    (hr : RankOK g r) {seeds : List String} {n sd : String}
    (hdep : DependsOn g n sd) (hsd : sd ∈ seeds) :
    ∀ fuel : Nat, r n < fuel → dependsOnAnyB g fuel n seeds = true := by
  induction hdep with
  | direct hl hx =>
    intro fuel hf
    cases fuel with
    | zero => omega
    | succ m =>
      simp only [dependsOnAnyB, hl]
      apply List.any_eq_true.mpr
      refine ⟨_, hx, ?_⟩
      apply Bool.or_eq_true_iff.mpr
      exact Or.inl (List.elem_iff.mpr hsd)
  | step hl hx hdx ih =>
    intro fuel hf
    cases fuel with
    | zero => omega
    | succ m =>
      simp only [dependsOnAnyB, hl]
      apply List.any_eq_true.mpr
      refine ⟨_, hx, ?_⟩
      apply Bool.or_eq_true_iff.mpr
      refine Or.inr (ih hsd m ?_)
      have hxc := hdx.isComputed
      have hlt := (rankOK_lookup hr hl).2 _ hx hxc
      omega

theorem init_le_foldl_max (l : List Nat) : ∀ init : Nat, init ≤ l.foldl max init := by
  induction l with
  | nil => intro init; simp
  | cons b rest ih =>
    intro init
    rw [List.foldl_cons]
    exact le_trans (le_max_left init b) (ih (max init b))

theorem le_foldl_max {l : List Nat} {a : Nat} (ha : a ∈ l) :
    ∀ init : Nat, a ≤ l.foldl max init := by
  induction l with
  | nil => simp at ha
  | cons b rest ih =>
    intro init
    rw [List.foldl_cons]
    rcases List.mem_cons.mp ha with h | h
    · have hab : a ≤ max init b := by rw [h]; exact le_max_right init b
      exact le_trans hab (init_le_foldl_max rest (max init b))
    · exact ih h (max init b)

theorem rankOf_stable {g : List (String × ComputedDef)} {r : String → Nat}
    (hr : RankOK g r) :
    ∀ (k : Nat) (n : String) (f1 f2 : Nat), r n ≤ k → r n < f1 → r n < f2 →
      rankOf g f1 n = rankOf g f2 n := by
  intro k
  induction k with
  | zero =>
    intro n f1 f2 hk h1 h2
    cases f1 with
    | zero => omega
    | succ m1 =>
      cases f2 with
      | zero => omega
      | succ m2 =>
        simp only [rankOf]
        cases hl : lookupComputed g n with
        | none => rfl
        | some d =>
          have hmap : d.deps.map (rankOf g m1) = d.deps.map (rankOf g m2) := by
            apply list_map_congr
            intro x hx
            have hnc : lookupComputed g x = none := by
              cases hlx : lookupComputed g x with
              | none => rfl
              | some dx =>
                exfalso
                have := (rankOK_lookup hr hl).2 x hx (by rw [hlx]; rfl)
                omega
            rw [rankOf_noncomputed hnc, rankOf_noncomputed hnc]
          simp [hmap]
  | succ k ih =>
    intro n f1 f2 hk h1 h2
    cases f1 with
    | zero => omega
    | succ m1 =>
      cases f2 with
      | zero => omega
      | succ m2 =>
        simp only [rankOf]
        cases hl : lookupComputed g n with
        | none => rfl
        | some d =>
          have hmap : d.deps.map (rankOf g m1) = d.deps.map (rankOf g m2) := by
            apply list_map_congr
            intro x hx
            cases hlx : lookupComputed g x with
            | none => rw [rankOf_noncomputed hlx, rankOf_noncomputed hlx]
            | some dx =>
              have hlt := (rankOK_lookup hr hl).2 x hx (by rw [hlx]; rfl)
              exact ih x m1 m2 (by omega) (by omega) (by omega)
          simp [hmap]

theorem rankOf_strict {g : List (String × ComputedDef)} {r : String → Nat}
    (hr : RankOK g r) {c x : String} {d : ComputedDef}
    (hl : lookupComputed g c = some d) (hx : x ∈ d.deps)
    (hxc : (lookupComputed g x).isSome = true) :
    rankOf g (fuelOf g) x < rankOf g (fuelOf g) c := by
  have hbc : r c ≤ g.length := (rankOK_lookup hr hl).1
  have hlt : r x < r c := (rankOK_lookup hr hl).2 x hx hxc
  have hxle : r x ≤ g.length := by
    rcases Option.isSome_iff_exists.mp hxc with ⟨dx, hdx⟩
    exact (rankOK_lookup hr hdx).1
  show rankOf g (g.length + 2) x < rankOf g (g.length + 2) c
  have hstep : rankOf g (g.length + 2) c
      = 1 + (d.deps.map (rankOf g (g.length + 1))).foldl max 0 := by
    simp [rankOf, fuelOf, hl]
  have hmem : rankOf g (g.length + 1) x ∈ d.deps.map (rankOf g (g.length + 1)) :=
    List.mem_map.mpr ⟨x, hx, rfl⟩
  have hle : rankOf g (g.length + 1) x
      ≤ (d.deps.map (rankOf g (g.length + 1))).foldl max 0 :=
    le_foldl_max hmem 0
  have hstab : rankOf g (g.length + 1) x = rankOf g (g.length + 2) x :=
    rankOf_stable hr (r x) x (g.length + 1) (g.length + 2) (le_refl _) (by omega) (by omega)
  omega

theorem mem_insertRank (key : String → Nat) (x a : String) (l : List String) :
    a ∈ insertRank key x l ↔ a = x ∨ a ∈ l := by
  induction l with
  | nil => simp [insertRank]
  | cons y ys ih =>
    by_cases h : key x ≤ key y
    · simp [insertRank, h]
    · simp only [insertRank, if_neg h, List.mem_cons, ih]
      tauto

theorem mem_sortByRank (key : String → Nat) (a : String) (l : List String) :
    a ∈ sortByRank key l ↔ a ∈ l := by
  induction l with
  | nil => simp [sortByRank]
  | cons x xs ih =>
    simp only [sortByRank, mem_insertRank, List.mem_cons, ih]

theorem nodup_insertRank (key : String → Nat) (x : String) (l : List String)
    (hx : x ∉ l) (hl : l.Nodup) : (insertRank key x l).Nodup := by
  induction l with
  | nil => simp [insertRank]
  | cons y ys ih =>
    rw [List.nodup_cons] at hl
    rw [List.mem_cons, not_or] at hx
    by_cases h : key x ≤ key y
    · rw [insertRank, if_pos h, List.nodup_cons, List.nodup_cons]
      refine ⟨?_, hl⟩
      rw [List.mem_cons, not_or]
      exact hx
    · rw [insertRank, if_neg h, List.nodup_cons]
      constructor
      · rw [mem_insertRank, not_or]
        exact ⟨fun he => hx.1 he.symm, hl.1⟩
      · exact ih hx.2 hl.2

theorem nodup_sortByRank (key : String → Nat) (l : List String) (hl : l.Nodup) :
    (sortByRank key l).Nodup := by
  induction l with
  | nil => simp [sortByRank]
  | cons x xs ih =>
    rw [List.nodup_cons] at hl
    apply nodup_insertRank
    · rw [mem_sortByRank]
      exact hl.1
    · exact ih hl.2

theorem sorted_insertRank (key : String → Nat) (x : String) (l : List String)
    (hl : l.Pairwise (fun a b => key a ≤ key b)) :
    (insertRank key x l).Pairwise (fun a b => key a ≤ key b) := by
  induction l with
  | nil => simp [insertRank]
  | cons y ys ih =>
    rw [List.pairwise_cons] at hl
    by_cases h : key x ≤ key y
    · rw [insertRank, if_pos h, List.pairwise_cons]
      constructor
      · intro b hb
        rcases List.mem_cons.mp hb with hb | hb
        · rw [hb]; exact h
        · exact le_trans h (hl.1 b hb)
      · rw [List.pairwise_cons]
        exact hl
    · rw [insertRank, if_neg h, List.pairwise_cons]
      constructor
      · intro b hb
        rcases (mem_insertRank key x b ys).mp hb with hb | hb
        · rw [hb]; omega
        · exact hl.1 b hb
      · exact ih hl.2

theorem sorted_sortByRank (key : String → Nat) (l : List String) :
    (sortByRank key l).Pairwise (fun a b => key a ≤ key b) := by
  induction l with
  | nil => simp [sortByRank]
  | cons x xs ih => exact sorted_insertRank key x (sortByRank key xs) ih

theorem goodOrder_tail {g : List (String × ComputedDef)} {a : String}
    {rest : List String} (h : GoodOrder g (a :: rest)) : GoodOrder g rest := by
  intro l1 c l2 hsplit d hd
  exact h (a :: l1) c l2 (by rw [hsplit]; rfl) d hd

theorem goodOrder_head {g : List (String × ComputedDef)} {a : String}
    {rest : List String} (h : GoodOrder g (a :: rest)) :
    ∀ d ∈ depsOf g a, d ∉ rest ∧ d ≠ a := by
  intro d hd
  exact h [] a rest rfl d hd

theorem recomputeAll_frame (g : List (String × ComputedDef)) :
    ∀ (order : List String) (st : List (String × Val)) (x : String), x ∉ order →
      lookupVal (recomputeAll g st order) x = lookupVal st x := by
  intro order
  induction order with
  | nil => intro st x _; rfl
  | cons a rest ih =>
    intro st x hx
    rw [List.mem_cons, not_or] at hx
    show lookupVal (recomputeAll g (recomputeStep g st a) rest) x = lookupVal st x
    rw [ih (recomputeStep g st a) x hx.2]
    unfold recomputeStep
    cases lookupComputed g a with
    | none => rfl
    | some d => exact lookupVal_setVal_ne st a x _ hx.1

theorem recomputeAll_eval (g : List (String × ComputedDef)) :
    ∀ (order : List String) (st : List (String × Val)),
      GoodOrder g order → order.Nodup →
      ∀ c ∈ order, ∀ d, lookupComputed g c = some d →
        lookupVal (recomputeAll g st order) c
          = d.fn (d.deps.map (lookupVal (recomputeAll g st order))) := by
  intro order
  induction order with
  | nil => intro st _ _ c hc; simp at hc
  | cons a rest ih =>
    intro st hgood hnd c hc d hd
    rw [List.nodup_cons] at hnd
    have hfin : recomputeAll g st (a :: rest)
        = recomputeAll g (recomputeStep g st a) rest := rfl
    rcases List.mem_cons.mp hc with hca | hcr
    · subst hca
      have hdeps := goodOrder_head hgood
      rw [depsOf, hd] at hdeps
      have hstep : recomputeStep g st c = setVal st c (d.fn (d.deps.map (lookupVal st))) := by
        unfold recomputeStep
        rw [hd]
      have hlc : lookupVal (recomputeAll g st (c :: rest)) c
          = d.fn (d.deps.map (lookupVal st)) := by
        rw [hfin, recomputeAll_frame g rest _ c hnd.1, hstep, lookupVal_setVal_self]
      rw [hlc]
      have hmap : d.deps.map (lookupVal st)
          = d.deps.map (lookupVal (recomputeAll g st (c :: rest))) := by
        apply list_map_congr
        intro x hx
        have hxp := hdeps x hx
        rw [hfin, recomputeAll_frame g rest _ x hxp.1, hstep,
          lookupVal_setVal_ne st c x _ hxp.2]
      rw [← hmap]
    · rw [hfin]
      exact ih (recomputeStep g st a) (goodOrder_tail hgood) hnd.2 c hcr d hd

theorem mem_affectedOrder {g : List (String × ComputedDef)} {seeds : List String}
    {n : String} : n ∈ affectedOrder g seeds
      ↔ n ∈ g.map Prod.fst ∧ dependsOnAnyB g (fuelOf g) n seeds = true := by
  unfold affectedOrder
  rw [mem_sortByRank, List.mem_filter]

theorem nodup_affectedOrder {g : List (String × ComputedDef)} {seeds : List String}
    (hnd : (g.map Prod.fst).Nodup) : (affectedOrder g seeds).Nodup :=
  nodup_sortByRank _ _ (List.Nodup.filter _ hnd)

theorem not_affected_deps {g : List (String × ComputedDef)} {r : String → Nat}
    (hr : RankOK g r) {seeds : List String} {c : String} {d : ComputedDef}
    (hl : lookupComputed g c = some d)
    (hna : dependsOnAnyB g (fuelOf g) c seeds = false) :
    ∀ x ∈ d.deps, seeds.contains x = false
      ∧ dependsOnAnyB g (fuelOf g) x seeds = false := by
  intro x hx
  have hunf : dependsOnAnyB g (fuelOf g) c seeds
      = d.deps.any (fun y => seeds.contains y || dependsOnAnyB g (g.length + 1) y seeds) := by
    show dependsOnAnyB g (g.length + 2) c seeds = _
    simp [dependsOnAnyB, hl]
  rw [hunf] at hna
  have hany := List.any_eq_false.mp hna x hx
  rw [Bool.not_eq_true, Bool.or_eq_false_iff] at hany
  refine ⟨hany.1, ?_⟩
  cases hlx : lookupComputed g x with
  | none => exact dependsOnAnyB_noncomputed hlx _ seeds
  | some dx =>
    have hbound : r x ≤ g.length := (rankOK_lookup hr hlx).1
    have hstab := dependsOnAnyB_stable hr seeds (r x) x (g.length + 1) (fuelOf g)
      (le_refl _) (by omega) (by show r x < g.length + 2; omega)
    rw [← hstab]
    exact hany.2

theorem goodOrder_affectedOrder {g : List (String × ComputedDef)} {r : String → Nat}
    (hr : RankOK g r) (seeds : List String) :
    GoodOrder g (affectedOrder g seeds) := by
  intro l1 c l2 hsplit x hx
  have hsorted := sorted_sortByRank (rankOf g (fuelOf g))
    ((g.map Prod.fst).filter (fun n => dependsOnAnyB g (fuelOf g) n seeds))
  rw [show sortByRank (rankOf g (fuelOf g)) ((g.map Prod.fst).filter
      (fun n => dependsOnAnyB g (fuelOf g) n seeds)) = affectedOrder g seeds from rfl,
    hsplit] at hsorted
  have hc : c ∈ affectedOrder g seeds := by
    rw [hsplit]
    exact List.mem_append.mpr (Or.inr (List.mem_cons_self c l2))
  have hcc : (lookupComputed g c).isSome = true :=
    isComputed_of_mem_keys (mem_affectedOrder.mp hc).1
  rcases Option.isSome_iff_exists.mp hcc with ⟨dc, hdc⟩
  rw [depsOf, hdc] at hx
  by_cases hxmem : x ∈ affectedOrder g seeds
  · have hxc : (lookupComputed g x).isSome = true :=
      isComputed_of_mem_keys (mem_affectedOrder.mp hxmem).1
    have hlt : rankOf g (fuelOf g) x < rankOf g (fuelOf g) c :=
      rankOf_strict hr hdc hx hxc
    have hpair := (List.pairwise_append.mp hsorted).2.1
    rw [List.pairwise_cons] at hpair
    constructor
    · intro hxl2
      have := hpair.1 x hxl2
      omega
    · intro hxc2
      rw [hxc2] at hlt
      omega
  · constructor
    · intro hxl2
      apply hxmem
      rw [hsplit]
      exact List.mem_append.mpr (Or.inr (List.mem_cons_of_mem c hxl2))
    · intro hxc2
      rw [hxc2] at hxmem
      exact hxmem hc

theorem runCycle_store (s : Store) (st1 changedRaw : List (String × Val)) :
    (runCycle s st1 changedRaw).store.state
      = recomputeAll s.computed st1 (affectedOrder s.computed (changedRaw.map Prod.fst))
    ∧ (runCycle s st1 changedRaw).store.computed = s.computed
    ∧ (runCycle s st1 changedRaw).store.observers = s.observers
    ∧ (runCycle s st1 changedRaw).store.handlers = s.handlers :=
  ⟨rfl, rfl, rfl, rfl⟩

theorem runCycle_recomputed (s : Store) (st1 changedRaw : List (String × Val)) :
    (runCycle s st1 changedRaw).recomputed
      = affectedOrder s.computed (changedRaw.map Prod.fst) := rfl

theorem runCycle_changed (s : Store) (st1 changedRaw : List (String × Val)) :
    (runCycle s st1 changedRaw).changed
      = changedRaw ++
        ((affectedOrder s.computed (changedRaw.map Prod.fst)).filter
          (fun c => differs (lookupVal st1 c)
            (lookupVal (recomputeAll s.computed st1
              (affectedOrder s.computed (changedRaw.map Prod.fst))) c))).map
          (fun c => (c, lookupVal (recomputeAll s.computed st1
            (affectedOrder s.computed (changedRaw.map Prod.fst))) c)) := rfl

theorem runCycle_events (s : Store) (st1 changedRaw : List (String × Val)) :
    (runCycle s st1 changedRaw).events
      = observeEvents s.observers ((runCycle s st1 changedRaw).changed.map Prod.fst)
          (recomputeAll s.computed st1 (affectedOrder s.computed (changedRaw.map Prod.fst)))
        ++ onchangeEvents s.handlers
          (recomputeAll s.computed st1 (affectedOrder s.computed (changedRaw.map Prod.fst)))
          (runCycle s st1 changedRaw).changed := rfl

theorem set_ok {s : Store} {patch : List (String × Val)} {out : SetOut}
    (h : Store.set s patch = Except.ok out) :
    out = doSet s patch ∧ ∀ p ∈ patch, lookupComputed s.computed p.1 = none := by
  unfold Store.set at h
  by_cases hc : patch.any (fun p => (lookupComputed s.computed p.1).isSome)
  · rw [if_pos hc] at h
    simp at h
  · rw [if_neg hc] at h
    simp at h
    refine ⟨h.symm, ?_⟩
    intro p hp
    have := List.any_eq_false.mp (Bool.of_not_eq_true hc) p hp
    rw [Bool.not_eq_true] at this
    exact Option.not_isSome_iff_eq_none.mp (by rw [this]; exact Bool.noConfusion)

theorem doSet_empty {s : Store} {patch : List (String × Val)}
    (h : (applyRaw s.state patch).2 = []) :
    doSet s patch
      = { store := { s with state := (applyRaw s.state patch).1 }
          changed := []
          recomputed := []
          events := [] } := by
  unfold doSet
  rw [if_pos (by rw [h]; rfl)]

theorem doSet_nonempty {s : Store} {patch : List (String × Val)}
    (h : (applyRaw s.state patch).2 ≠ []) :
    doSet s patch = runCycle s (applyRaw s.state patch).1 (applyRaw s.state patch).2 := by
  unfold doSet
  rw [if_neg (by rw [List.isEmpty_iff]; exact h)]

theorem doSet_invariant (s : Store) (patch : List (String × Val)) (r : String → Nat)
    (hr : RankOK s.computed r) (hnd : (s.computed.map Prod.fst).Nodup)
    (hinv : Invariant s)
    (hpatch : ∀ p ∈ patch, lookupComputed s.computed p.1 = none) :
    Invariant (doSet s patch).store := by
  by_cases hcr : (applyRaw s.state patch).2 = []
  · rw [doSet_empty hcr]
    intro p hp
    have hall : ∀ y, lookupVal (applyRaw s.state patch).1 y = lookupVal s.state y := by
      intro y
      apply applyRaw_frame
      rw [hcr]
      simp
    show lookupVal (applyRaw s.state patch).1 p.1
        = p.2.fn (p.2.deps.map (lookupVal (applyRaw s.state patch).1))
    rw [hall p.1]
    have hmap : p.2.deps.map (lookupVal (applyRaw s.state patch).1)
        = p.2.deps.map (lookupVal s.state) :=
      list_map_congr (fun x _ => hall x)
    rw [hmap]
    exact hinv p hp
  · rw [doSet_nonempty hcr]
    intro p hp
    have hpm : p ∈ s.computed := hp
    have hlp : lookupComputed s.computed p.1 = some p.2 :=
      lookupComputed_of_mem_nodup hnd hpm
    have hpnotpatch : p.1 ∉ patch.map Prod.fst := by
      intro hmem
      rcases List.mem_map.mp hmem with ⟨q, hq, hq1⟩
      have := hpatch q hq
      rw [hq1, hlp] at this
      exact Option.noConfusion this
    show lookupVal (recomputeAll s.computed (applyRaw s.state patch).1
        (affectedOrder s.computed ((applyRaw s.state patch).2.map Prod.fst))) p.1
      = p.2.fn (p.2.deps.map (lookupVal (recomputeAll s.computed (applyRaw s.state patch).1
          (affectedOrder s.computed ((applyRaw s.state patch).2.map Prod.fst)))))
    by_cases hord : p.1 ∈ affectedOrder s.computed ((applyRaw s.state patch).2.map Prod.fst)
    · exact recomputeAll_eval s.computed _ _
        (goodOrder_affectedOrder hr _) (nodup_affectedOrder hnd) p.1 hord p.2 hlp
    · have hkeys : p.1 ∈ s.computed.map Prod.fst := List.mem_map.mpr ⟨p, hpm, rfl⟩
      have haff : dependsOnAnyB s.computed (fuelOf s.computed) p.1
          ((applyRaw s.state patch).2.map Prod.fst) = false := by
        cases haf : dependsOnAnyB s.computed (fuelOf s.computed) p.1
            ((applyRaw s.state patch).2.map Prod.fst) with
        | false => rfl
        | true => exact absurd (mem_affectedOrder.mpr ⟨hkeys, haf⟩) hord
      have hfr1 : lookupVal (recomputeAll s.computed (applyRaw s.state patch).1
          (affectedOrder s.computed ((applyRaw s.state patch).2.map Prod.fst))) p.1
          = lookupVal (applyRaw s.state patch).1 p.1 :=
        recomputeAll_frame s.computed _ _ p.1 hord
      have hfr2 : lookupVal (applyRaw s.state patch).1 p.1 = lookupVal s.state p.1 :=
        applyRaw_frame_patch s.state patch p.1 hpnotpatch
      rw [hfr1, hfr2]
      have hdeps := not_affected_deps hr hlp haff
      have hmap : p.2.deps.map (lookupVal (recomputeAll s.computed
          (applyRaw s.state patch).1
          (affectedOrder s.computed ((applyRaw s.state patch).2.map Prod.fst))))
          = p.2.deps.map (lookupVal s.state) := by
        apply list_map_congr
        intro x hx
        have hxd := hdeps x hx
        have hxord : x ∉ affectedOrder s.computed
            ((applyRaw s.state patch).2.map Prod.fst) := by
          intro hxm
          have := (mem_affectedOrder.mp hxm).2
          rw [hxd.2] at this
          exact Bool.noConfusion this
        have hxseeds : x ∉ (applyRaw s.state patch).2.map Prod.fst := by
          intro hxm
          have hcx : ((applyRaw s.state patch).2.map Prod.fst).contains x = true :=
            List.elem_iff.mpr hxm
          rw [hxd.1] at hcx
          exact Bool.noConfusion hcx
        rw [recomputeAll_frame s.computed _ _ x hxord]
        exact applyRaw_frame s.state patch x hxseeds
      rw [hmap]
      exact hinv p hpm

theorem set_invariant {s : Store} {patch : List (String × Val)} {out : SetOut}
    (r : String → Nat) (hr : RankOK s.computed r)
    (hnd : (s.computed.map Prod.fst).Nodup) (hinv : Invariant s)
    (hset : Store.set s patch = Except.ok out) : Invariant out.store := by
  rcases set_ok hset with ⟨hout, hpatch⟩
  rw [hout]
  exact doSet_invariant s patch r hr hnd hinv hpatch

theorem mem_observeEvents {obs : List (String × Nat)} {changedNames : List String}
    {st : List (String × Val)} {e : Event} :
    e ∈ observeEvents obs changedNames st
      ↔ ∃ p ∈ obs, changedNames.contains p.1 = true
          ∧ e = Event.observeCall p.1 p.2 (lookupVal st p.1) := by
  unfold observeEvents
  rw [List.mem_filterMap]
  constructor
  · rintro ⟨p, hp, hsome⟩
    by_cases hc : changedNames.contains p.1
    · rw [if_pos hc] at hsome
      exact ⟨p, hp, hc, (Option.some_inj.mp hsome).symm⟩
    · rw [if_neg hc] at hsome
      exact Option.noConfusion hsome
  · rintro ⟨p, hp, hc, he⟩
    exact ⟨p, hp, by rw [if_pos hc, he]⟩

theorem observeEvents_append (o1 o2 : List (String × Nat)) (ch : List String)
    (st : List (String × Val)) :
    observeEvents (o1 ++ o2) ch st = observeEvents o1 ch st ++ observeEvents o2 ch st :=
  List.filterMap_append o1 o2 _

theorem mem_onchangeEvents {handlers : List Nat} {st : List (String × Val)}
    {changes : List (String × Val)} {e : Event} :
    e ∈ onchangeEvents handlers st changes
      ↔ ∃ h ∈ handlers, e = Event.onchangeCall h st changes := by
  unfold onchangeEvents
  rw [List.mem_map]
  constructor
  · rintro ⟨h, hh, he⟩
    exact ⟨h, hh, he.symm⟩
  · rintro ⟨h, hh, he⟩
    exact ⟨h, hh, he.symm⟩

theorem isObserveEvent_of_mem_observeEvents {obs : List (String × Nat)}
    {ch : List String} {st : List (String × Val)} {e : Event}
    (h : e ∈ observeEvents obs ch st) : isObserveEvent e = true := by
  rcases mem_observeEvents.mp h with ⟨p, _, _, he⟩
  rw [he]
  rfl

theorem isObserveEvent_of_mem_onchangeEvents {handlers : List Nat}
    {st : List (String × Val)} {changes : List (String × Val)} {e : Event}
    (h : e ∈ onchangeEvents handlers st changes) : isObserveEvent e = false := by
  rcases mem_onchangeEvents.mp h with ⟨hh, _, he⟩
  rw [he]
  rfl

theorem doSet_changed_nil_iff (s : Store) (patch : List (String × Val)) :
    (doSet s patch).changed = [] ↔ (applyRaw s.state patch).2 = [] := by
  constructor
  · intro h
    by_cases hcr : (applyRaw s.state patch).2 = []
    · exact hcr
    · exfalso
      rw [doSet_nonempty hcr, runCycle_changed] at h
      exact hcr (List.append_eq_nil.mp h).1
  · intro h
    rw [doSet_empty h]

theorem doSet_events_empty (s : Store) (patch : List (String × Val))
    (h : (doSet s patch).changed = []) : (doSet s patch).events = [] := by
  rw [doSet_empty ((doSet_changed_nil_iff s patch).mp h)]

theorem doSet_events_decomp (s : Store) (patch : List (String × Val))
    (h : (applyRaw s.state patch).2 ≠ []) :
    (doSet s patch).events
      = observeEvents s.observers ((doSet s patch).changed.map Prod.fst)
          (doSet s patch).store.state
        ++ onchangeEvents s.handlers (doSet s patch).store.state
          (doSet s patch).changed := by
  rw [doSet_nonempty h]
  rfl

theorem countP_onchangeEvents (handlers : List Nat) (st ch : List (String × Val))
    (id : Nat) :
    (onchangeEvents handlers st ch).countP
      (fun e => match e with | Event.onchangeCall i _ _ => i == id | _ => false)
      = handlers.count id := by
  unfold onchangeEvents
  rw [List.countP_map, List.count_eq_countP]
  apply List.countP_congr
  intro h _
  rfl

theorem countP_onch_observeEvents_zero (obs : List (String × Nat)) (ch : List String)
    (st : List (String × Val)) (id : Nat) :
    (observeEvents obs ch st).countP
      (fun e => match e with | Event.onchangeCall i _ _ => i == id | _ => false) = 0 := by
  apply List.countP_eq_zero.mpr
  intro e he
  rcases mem_observeEvents.mp he with ⟨p, _, _, hee⟩
  rw [hee]
  simp

theorem countP_cb_observeEvents_zero (obs : List (String × Nat)) (ch : List String)
    (st : List (String × Val)) (id : Nat) (hobs : ∀ p ∈ obs, p.2 ≠ id) :
    (observeEvents obs ch st).countP (fun e => e.cb == id) = 0 := by
  apply List.countP_eq_zero.mpr
  intro e he
  rcases mem_observeEvents.mp he with ⟨p, hp, _, hee⟩
  rw [hee]
  simp [Event.cb]
  exact hobs p hp

theorem countP_cb_onchangeEvents_zero (handlers : List Nat)
    (st ch : List (String × Val)) (id : Nat) (hh : ∀ h ∈ handlers, h ≠ id) :
    (onchangeEvents handlers st ch).countP (fun e => e.cb == id) = 0 := by
  apply List.countP_eq_zero.mpr
  intro e he
  rcases mem_onchangeEvents.mp he with ⟨h, hmem, hee⟩
  rw [hee]
  simp [Event.cb]
  exact hh h hmem

theorem observeEvents_single (nm : String) (oid : Nat) (ch : List String)
    (st : List (String × Val)) :
    observeEvents [(nm, oid)] ch st
      = if ch.contains nm then [Event.observeCall nm oid (lookupVal st nm)] else [] := by
  by_cases h : nm ∈ ch
  · simp [observeEvents, h]
  · simp [observeEvents, h]

theorem doSet_onchange_payload (s : Store) (patch : List (String × Val)) :
    ∀ (id : Nat) (snap ch : List (String × Val)),
      Event.onchangeCall id snap ch ∈ (doSet s patch).events →
        id ∈ s.handlers ∧ snap = (doSet s patch).store.state
          ∧ ch = (doSet s patch).changed := by
  intro id snap ch hmem
  by_cases hcr : (applyRaw s.state patch).2 = []
  · exfalso
    rw [doSet_events_empty s patch (by rw [doSet_empty hcr])] at hmem
    simp at hmem
  · rw [doSet_events_decomp s patch hcr] at hmem
    rcases List.mem_append.mp hmem with hm | hm
    · exfalso
      rcases mem_observeEvents.mp hm with ⟨p, _, _, hee⟩
      exact Event.noConfusion hee
    · rcases mem_onchangeEvents.mp hm with ⟨h, hmemh, hee⟩
      rcases Event.onchangeCall.inj hee with ⟨hid, hsnap, hch⟩
      exact ⟨hid ▸ hmemh, hsnap, hch⟩

theorem runDispatch_delivers (failing : Nat → Bool) :
    ∀ evts : List Event, (runDispatch failing evts).1 = evts := by
  intro evts
  induction evts with
  | nil => rfl
  | cons e rest ih =>
    show e :: (runDispatch failing rest).1 = e :: rest
    rw [ih]

theorem runDispatch_errors (failing : Nat → Bool) :
    ∀ evts : List Event, (runDispatch failing evts).2
      = (evts.map Event.cb).filter failing := by
  intro evts
  induction evts with
  | nil => rfl
  | cons e rest ih =>
    show (if failing e.cb then e.cb :: (runDispatch failing rest).2
        else (runDispatch failing rest).2) = _
    rw [List.map_cons, List.filter_cons, ih]

theorem applyRaw_single_differs (st : List (String × Val)) (x : String) (v : Val)
    (hd : differs (lookupVal st x) v = true) :
    applyRaw st [(x, v)] = (setVal st x v, [(x, v)]) := by
  simp [applyRaw, hd]

theorem changed_names_subset (s : Store) (patch : List (String × Val)) :
    ∀ y ∈ (doSet s patch).changed.map Prod.fst,
      y ∈ (applyRaw s.state patch).2.map Prod.fst
        ∨ y ∈ affectedOrder s.computed ((applyRaw s.state patch).2.map Prod.fst) := by
  intro y hy
  by_cases hcr : (applyRaw s.state patch).2 = []
  · rw [doSet_empty hcr] at hy
    simp at hy
  · rw [doSet_nonempty hcr, runCycle_changed, List.map_append] at hy
    rcases List.mem_append.mp hy with hm | hm
    · exact Or.inl hm
    · rw [List.map_map] at hm
      rcases List.mem_map.mp hm with ⟨c, hc, hcy⟩
      refine Or.inr ?_
      rw [← hcy]
      show (c : String) ∈ _
      exact (List.mem_filter.mp hc).1

/-- Claim C10: a Store can be constructed with no initial data argument; the
resulting store has an empty state in which every name reads as the absence
marker, and it is identical to a store constructed with an empty map, hence
behaves identically under all subsequent operations. -/
theorem claimC10 :
    mkStore none = mkStore (some [])
      ∧ ∀ n : String, Store.get (mkStore none) n = Val.undef :=
  ⟨rfl, fun _ => rfl⟩

/-- Claim C1: the documented scenario — volume computed from width, height and
depth over the initial data reads one thousand, reads two thousand after width
is set to twenty, and a mass computed from volume and density then reads six
thousand; and in general, after any accepted mutation cycle on a well-formed
store, the value of every computed property equals its derive function applied
positionally to the current values of its dependencies. -/
theorem claimC1 :
    (Store.get exA1 "volume" = Val.prim 1000
      ∧ Store.set exA1 [("width", Val.prim 20)]
          = Except.ok (doSet exA1 [("width", Val.prim 20)])
      ∧ Store.get exA2 "volume" = Val.prim 2000
      ∧ Store.get exA3 "mass" = Val.prim 6000)
    ∧ (∀ (s : Store) (patch : List (String × Val)) (out : SetOut) (r : String → Nat),
        RankOK s.computed r → (s.computed.map Prod.fst).Nodup → Invariant s →
        Store.set s patch = Except.ok out → Invariant out.store) := by
  constructor
  · exact ⟨by decide, rfl, by decide, by decide⟩
  · intro s patch out r hr hnd hinv hset
    exact set_invariant r hr hnd hinv hset

/-- Witness for C1: the general recomputation-correctness part applied to the
concrete example store and the documented width write. -/
theorem claimC1_witness :
    Invariant (doSet exA1 [("width", Val.prim 20)]).store :=
  claimC1.2 exA1 [("width", Val.prim 20)] (doSet exA1 [("width", Val.prim 20)])
    rankW (by decide) (by decide) (by decide) rfl

/-- Claim C6: a single raw write cascades through chained computed properties
within one cycle — the documented width write produces one change set holding
width, volume and mass with the recomputed values and exactly one onchange
invocation — and no observer ever sees a stale computed value: after any
accepted cycle on a well-formed store the computed-value invariant holds of
the result, and every onchange payload snapshot is exactly that result state. -/
theorem claimC6 :
    (Store.set exC3 [("width", Val.prim 2)] = Except.ok exC4
      ∧ exC4.changed = [("width", Val.prim 2), ("volume", Val.prim 200),
          ("mass", Val.prim 600)]
      ∧ exC4.events.countP (fun e => !(isObserveEvent e)) = 1)
    ∧ (∀ (s : Store) (patch : List (String × Val)) (out : SetOut) (r : String → Nat),
        RankOK s.computed r → (s.computed.map Prod.fst).Nodup → Invariant s →
        Store.set s patch = Except.ok out →
          Invariant out.store
          ∧ ∀ (id : Nat) (snap ch : List (String × Val)),
              Event.onchangeCall id snap ch ∈ out.events → snap = out.store.state) := by
  constructor
  · exact ⟨rfl, by decide, by decide⟩
  · intro s patch out r hr hnd hinv hset
    refine ⟨set_invariant r hr hnd hinv hset, ?_⟩
    intro id snap ch hmem
    rcases set_ok hset with ⟨hout, _⟩
    subst hout
    exact (doSet_onchange_payload s patch id snap ch hmem).2.1

/-- Witness for C6: the invariant part applied to the cascade example. -/
theorem claimC6_witness :
    Invariant (doSet exC3 [("width", Val.prim 2)]).store :=
  (claimC6.2 exC3 [("width", Val.prim 2)] (doSet exC3 [("width", Val.prim 2)])
    rankW (by decide) (by decide) (by decide) rfl).1

/-- Claim C2: writing a primitively-equal value to a raw property is a no-op —
the change set is empty, no observe or onchange callback is invoked, and every
property keeps its value; and within a multi-key patch each
primitively-unchanged key is individually excluded, as in the documented
example where setting bar, baz and qux to three (baz already three) reports
only bar and qux. -/
theorem claimC2 (s : Store) (x : String) (v : Int)
    (hx : Store.get s x = Val.prim v)
    (hc : lookupComputed s.computed x = none) :
    (∃ out, Store.set s [(x, Val.prim v)] = Except.ok out
      ∧ out.changed = [] ∧ out.events = []
      ∧ ∀ y, Store.get out.store y = Store.get s y)
    ∧ (Store.set exB1 [("bar", Val.prim 3), ("baz", Val.prim 3),
        ("qux", Val.prim 3)]).toOption.map (fun o => o.changed.map Prod.fst)
        = some ["bar", "qux"] := by
  constructor
  · have hx2 : lookupVal s.state x = Val.prim v := hx
    have hd : differs (lookupVal s.state x) (Val.prim v) = false := by
      rw [hx2]
      exact differs_self_prim v
    have har : applyRaw s.state [(x, Val.prim v)] = (setVal s.state x (Val.prim v), []) :=
      applyRaw_noop s.state x (Val.prim v) hd
    have hcr : (applyRaw s.state [(x, Val.prim v)]).2 = [] := by rw [har]
    refine ⟨doSet s [(x, Val.prim v)], ?_, ?_, ?_, ?_⟩
    · unfold Store.set
      rw [if_neg]
      simp [hc]
    · rw [doSet_empty hcr]
    · rw [doSet_empty hcr]
    · intro y
      rw [doSet_empty hcr]
      show lookupVal (applyRaw s.state [(x, Val.prim v)]).1 y = lookupVal s.state y
      rw [har, lookupVal_setVal]
      by_cases hxy : x = y
      · rw [if_pos hxy, ← hxy, hx2]
      · rw [if_neg hxy]
  · decide

/-- Witness for C2: the no-op part applied to the onchange example store and
its baz property, which already holds three. -/
theorem claimC2_witness :
    (doSet exB1 [("baz", Val.prim 3)]).changed = []
      ∧ (doSet exB1 [("baz", Val.prim 3)]).events = [] := by
  obtain ⟨out, hok, hch, hev, _⟩ := (claimC2 exB1 "baz" 3 (by decide) rfl).1
  have h2 : Store.set exB1 [("baz", Val.prim 3)]
      = Except.ok (doSet exB1 [("baz", Val.prim 3)]) := rfl
  rw [h2] at hok
  rw [Except.ok.inj hok]
  exact ⟨hch, hev⟩

/-- Claim C3: explicitly re-setting the identical object or array reference is
still treated as a change — the change set is non-empty and includes the
property, and every registered onchange subscriber is notified — and the
documented example fires its onchange subscriber on both consecutive re-sets
of the same reference. -/
theorem claimC3 (s : Store) (obj : String) (rid : Nat)
    (_hobj : Store.get s obj = Val.ref rid)
    (hc : lookupComputed s.computed obj = none) :
    (∃ out, Store.set s [(obj, Val.ref rid)] = Except.ok out
      ∧ obj ∈ out.changed.map Prod.fst ∧ out.changed ≠ []
      ∧ ∀ h ∈ s.handlers,
          Event.onchangeCall h out.store.state out.changed ∈ out.events)
    ∧ (Store.set exF1 [("object", Val.ref 1)]).toOption.map
        (fun o => o.events.countP (fun e => !(isObserveEvent e))) = some 1
    ∧ (Store.set exF2.store [("object", Val.ref 1)]).toOption.map
        (fun o => o.events.countP (fun e => !(isObserveEvent e))) = some 1 := by
  refine ⟨?_, by decide, by decide⟩
  have har : applyRaw s.state [(obj, Val.ref rid)]
      = (setVal s.state obj (Val.ref rid), [(obj, Val.ref rid)]) :=
    applyRaw_single_differs s.state obj (Val.ref rid) (differs_ref _ rid)
  have hcr : (applyRaw s.state [(obj, Val.ref rid)]).2 ≠ [] := by
    rw [har]
    simp
  refine ⟨doSet s [(obj, Val.ref rid)], ?_, ?_, ?_, ?_⟩
  · unfold Store.set
    rw [if_neg]
    simp [hc]
  · rw [doSet_nonempty hcr, runCycle_changed, List.map_append, har]
    simp
  · rw [doSet_nonempty hcr, runCycle_changed, har]
    simp
  · intro h hh
    rw [doSet_events_decomp s [(obj, Val.ref rid)] hcr]
    exact List.mem_append.mpr (Or.inr (mem_onchangeEvents.mpr ⟨h, hh, rfl⟩))

/-- Witness for C3: the reference re-set part applied to the documented object
example store. -/
theorem claimC3_witness :
    "object" ∈ (doSet exF1 [("object", Val.ref 1)]).changed.map Prod.fst
      ∧ (doSet exF1 [("object", Val.ref 1)]).changed ≠ [] := by
  obtain ⟨out, hok, hmem, hne, _⟩ := (claimC3 exF1 "object" 1 (by decide) rfl).1
  have h2 : Store.set exF1 [("object", Val.ref 1)]
      = Except.ok (doSet exF1 [("object", Val.ref 1)]) := rfl
  rw [h2] at hok
  rw [Except.ok.inj hok]
  exact ⟨hmem, hne⟩

/-- Claim C5: an onchange subscriber is never invoked for a cycle with an
empty change set; for every accepted cycle with a non-empty change set each
registration is invoked exactly once, receiving the full current state
snapshot and the change set; and all onchange invocations come after every
per-property observe invocation of the cycle.  Registration itself produces no
invocation: only `Store.set` dispatches events in this model. -/
theorem claimC5 (s : Store) (patch : List (String × Val)) (out : SetOut)
    (hset : Store.set s patch = Except.ok out) :
    (out.changed = [] → out.events = [])
    ∧ (∀ id : Nat, out.events.countP
        (fun e => match e with | Event.onchangeCall i _ _ => i == id | _ => false)
        = if out.changed.isEmpty then 0 else s.handlers.count id)
    ∧ (∀ (id : Nat) (snap ch : List (String × Val)),
        Event.onchangeCall id snap ch ∈ out.events →
          id ∈ s.handlers ∧ snap = out.store.state ∧ ch = out.changed)
    ∧ (∃ a b, out.events = a ++ b
        ∧ (∀ e ∈ a, isObserveEvent e = true)
        ∧ (∀ e ∈ b, isObserveEvent e = false)) := by
  rcases set_ok hset with ⟨hout, _⟩
  subst hout
  refine ⟨doSet_events_empty s patch, ?_, doSet_onchange_payload s patch, ?_⟩
  · intro id
    by_cases hcr : (applyRaw s.state patch).2 = []
    · rw [doSet_empty hcr]
      simp
    · have hne : (doSet s patch).changed ≠ [] := by
        rw [Ne, doSet_changed_nil_iff]
        exact hcr
      have hie : (doSet s patch).changed.isEmpty = false := by
        cases hi : (doSet s patch).changed.isEmpty with
        | true => exact absurd (List.isEmpty_iff.mp hi) hne
        | false => rfl
      rw [doSet_events_decomp s patch hcr, List.countP_append,
        countP_onch_observeEvents_zero, countP_onchangeEvents, hie]
      simp
  · by_cases hcr : (applyRaw s.state patch).2 = []
    · refine ⟨[], [], ?_, by simp, by simp⟩
      rw [doSet_events_empty s patch (by rw [doSet_empty hcr])]
      rfl
    · refine ⟨observeEvents s.observers ((doSet s patch).changed.map Prod.fst)
          (doSet s patch).store.state,
        onchangeEvents s.handlers (doSet s patch).store.state (doSet s patch).changed,
        doSet_events_decomp s patch hcr, ?_, ?_⟩
      · intro e he
        exact isObserveEvent_of_mem_observeEvents he
      · intro e he
        exact isObserveEvent_of_mem_onchangeEvents he

/-- Witness for C5: the exactly-once count applied to the cascade example,
whose single onchange subscriber has identifier zero. -/
theorem claimC5_witness :
    (doSet exC3 [("width", Val.prim 2)]).events.countP
        (fun e => match e with | Event.onchangeCall i _ _ => i == 0 | _ => false)
      = if (doSet exC3 [("width", Val.prim 2)]).changed.isEmpty then 0
        else exC3.handlers.count 0 :=
  (claimC5 exC3 [("width", Val.prim 2)] (doSet exC3 [("width", Val.prim 2)]) rfl).2.1 0

/-- Claim C4: `observe` invokes the callback exactly once, synchronously at
registration time, with the current value of the observed name, and returns
the subscription identifier (the unsubscribe capability); in every later
accepted cycle the callback is invoked exactly once when the name is in the
change set and not at all otherwise; and after unsubscribing it is never
invoked again. -/
theorem claimC4 (s : Store) (nm : String) (hf : FreshIds s) :
    ((Store.observe s nm).2.2 = Event.observeCall nm s.nextId (Store.get s nm)
      ∧ (Store.observe s nm).2.1 = s.nextId)
    ∧ (∀ (patch : List (String × Val)) (out : SetOut),
        Store.set (Store.observe s nm).1 patch = Except.ok out →
        out.events.countP (fun e => e.cb == s.nextId)
          = if (out.changed.map Prod.fst).contains nm then 1 else 0)
    ∧ (∀ (patch : List (String × Val)) (out : SetOut),
        Store.set (Store.unsubscribe (Store.observe s nm).1 s.nextId) patch
          = Except.ok out →
        out.events.countP (fun e => e.cb == s.nextId) = 0) := by
  refine ⟨⟨rfl, rfl⟩, ?_, ?_⟩
  · intro patch out hset
    rcases set_ok hset with ⟨hout, _⟩
    subst hout
    by_cases hcr : (applyRaw (Store.observe s nm).1.state patch).2 = []
    · rw [doSet_empty hcr]
      simp
    · rw [doSet_events_decomp _ patch hcr, List.countP_append]
      have hobs : (Store.observe s nm).1.observers = s.observers ++ [(nm, s.nextId)] := rfl
      have hhan : (Store.observe s nm).1.handlers = s.handlers := rfl
      rw [hobs, hhan, observeEvents_append, List.countP_append]
      rw [countP_cb_observeEvents_zero _ _ _ _
        (fun p hp => Nat.ne_of_lt (hf.1 p hp))]
      rw [countP_cb_onchangeEvents_zero _ _ _ _
        (fun h hh => Nat.ne_of_lt (hf.2 h hh))]
      rw [observeEvents_single]
      by_cases hcont : ((doSet (Store.observe s nm).1 patch).changed.map
          Prod.fst).contains nm
      · rw [if_pos hcont, if_pos hcont]
        simp [Event.cb]
      · rw [if_neg hcont, if_neg hcont]
        simp
  · intro patch out hset
    rcases set_ok hset with ⟨hout, _⟩
    subst hout
    by_cases hcr : (applyRaw (Store.unsubscribe (Store.observe s nm).1
        s.nextId).state patch).2 = []
    · rw [doSet_empty hcr]
      simp
    · rw [doSet_events_decomp _ patch hcr, List.countP_append]
      rw [countP_cb_observeEvents_zero _ _ _ _ ?hobs]
      rw [countP_cb_onchangeEvents_zero _ _ _ _ ?hh]
      case hobs =>
        intro p hp
        have := (List.mem_filter.mp hp).2
        exact of_decide_eq_true this
      case hh =>
        intro h hh
        have := (List.mem_filter.mp hh).2
        exact of_decide_eq_true this

/-- Witness for C4: the per-cycle count applied to a concrete observed store
and a write that changes the observed property. -/
theorem claimC4_witness :
    (doSet (Store.observe exW "foo").1 [("foo", Val.prim 9)]).events.countP
        (fun e => e.cb == exW.nextId)
      = if (((doSet (Store.observe exW "foo").1
            [("foo", Val.prim 9)]).changed.map Prod.fst).contains "foo")
        then 1 else 0 :=
  (claimC4 exW "foo" (by decide)).2.1 [("foo", Val.prim 9)]
    (doSet (Store.observe exW "foo").1 [("foo", Val.prim 9)]) rfl

theorem set_frame_one {s : Store} {u : String} {w : Val} {c : String}
    {dc : ComputedDef} (hc : lookupComputed s.computed c = some dc)
    (hu : lookupComputed s.computed u = none) (hnd : ¬ DependsOn s.computed c u)
    {out : SetOut} (hset : Store.set s [(u, w)] = Except.ok out) :
    Store.get out.store c = Store.get s c ∧ c ∉ out.recomputed
      ∧ ∀ (oid : Nat) (x : Val), Event.observeCall c oid x ∉ out.events := by
  rcases set_ok hset with ⟨hout, _⟩
  subst hout
  have hcu : c ≠ u := by
    intro he
    rw [he, hu] at hc
    exact Option.noConfusion hc
  by_cases hd : differs (lookupVal s.state u) w
  · have har : applyRaw s.state [(u, w)] = (setVal s.state u w, [(u, w)]) :=
      applyRaw_single_differs s.state u w hd
    have hcr : (applyRaw s.state [(u, w)]).2 ≠ [] := by
      rw [har]
      simp
    have hcord : c ∉ affectedOrder s.computed
        ((applyRaw s.state [(u, w)]).2.map Prod.fst) := by
      intro hm
      have haf := (mem_affectedOrder.mp hm).2
      rcases dependsOnAnyB_sound _ _ _ haf with ⟨sd, hsd, hdep⟩
      rw [har] at hsd
      simp at hsd
      rw [hsd] at hdep
      exact hnd hdep
    refine ⟨?_, ?_, ?_⟩
    · rw [doSet_nonempty hcr]
      show lookupVal (recomputeAll s.computed (applyRaw s.state [(u, w)]).1
          (affectedOrder s.computed ((applyRaw s.state [(u, w)]).2.map Prod.fst))) c
        = lookupVal s.state c
      rw [recomputeAll_frame s.computed _ _ c hcord, har]
      exact lookupVal_setVal_ne s.state u c w hcu
    · rw [doSet_nonempty hcr, runCycle_recomputed]
      exact hcord
    · intro oid x hmem
      rw [doSet_events_decomp _ _ hcr] at hmem
      rcases List.mem_append.mp hmem with hm | hm
      · rcases mem_observeEvents.mp hm with ⟨p, hp, hcont, heq⟩
        rcases Event.observeCall.inj heq with ⟨hpc, _, _⟩
        have hcchanged : c ∈ (doSet s [(u, w)]).changed.map Prod.fst := by
          apply List.elem_iff.mp
          rw [hpc]
          exact hcont
        rcases changed_names_subset s [(u, w)] c hcchanged with hm2 | hm2
        · rw [har] at hm2
          simp at hm2
          exact hcu hm2
        · exact hcord hm2
      · rcases mem_onchangeEvents.mp hm with ⟨h, _, heq⟩
        exact Event.noConfusion heq
  · have har : applyRaw s.state [(u, w)] = (setVal s.state u w, []) :=
      applyRaw_noop s.state u w (by
        cases hdd : differs (lookupVal s.state u) w with
        | true => exact absurd hdd hd
        | false => rfl)
    have hcr : (applyRaw s.state [(u, w)]).2 = [] := by rw [har]
    rw [doSet_empty hcr]
    refine ⟨?_, by simp, by simp⟩
    show lookupVal (applyRaw s.state [(u, w)]).1 c = lookupVal s.state c
    rw [har]
    exact lookupVal_setVal_ne s.state u c w hcu

/-- Claim C7: a write touching only a key outside the transitive dependency
set of the computed properties volume and mass leaves both values unchanged,
invokes neither derive function, and invokes none of their per-property
observe callbacks. -/
theorem claimC7 (s : Store) (u : String) (w : Val) (cv cm : String)
    (dv dm : ComputedDef) (out : SetOut)
    (hcv : lookupComputed s.computed cv = some dv)
    (hcm : lookupComputed s.computed cm = some dm)
    (hu : lookupComputed s.computed u = none)
    (hnv : ¬ DependsOn s.computed cv u) (hnm : ¬ DependsOn s.computed cm u)
    (hset : Store.set s [(u, w)] = Except.ok out) :
    Store.get out.store cv = Store.get s cv ∧ Store.get out.store cm = Store.get s cm
      ∧ cv ∉ out.recomputed ∧ cm ∉ out.recomputed
      ∧ (∀ (oid : Nat) (x : Val), Event.observeCall cv oid x ∉ out.events)
      ∧ (∀ (oid : Nat) (x : Val), Event.observeCall cm oid x ∉ out.events) := by
  rcases set_frame_one hcv hu hnv hset with ⟨a1, a2, a3⟩
  rcases set_frame_one hcm hu hnm hset with ⟨b1, b2, b3⟩
  exact ⟨a1, b1, a2, b2, a3, b3⟩

/-- Witness for C7: the cascade example store, writing the unrelated key
"other" which neither volume nor mass depends on. -/
theorem claimC7_witness :
    Store.get (doSet exC3 [("other", Val.prim 1)]).store "volume"
        = Store.get exC3 "volume"
      ∧ Store.get (doSet exC3 [("other", Val.prim 1)]).store "mass"
        = Store.get exC3 "mass"
      ∧ "volume" ∉ (doSet exC3 [("other", Val.prim 1)]).recomputed
      ∧ "mass" ∉ (doSet exC3 [("other", Val.prim 1)]).recomputed := by
  have hr : RankOK exC3.computed rankW := by decide
  have hnv : ¬ DependsOn exC3.computed "volume" "other" := by
    intro h
    have := dependsOnAnyB_complete hr h (List.mem_singleton.mpr rfl)
      (fuelOf exC3.computed) (by decide)
    exact absurd this (by decide)
  have hnm : ¬ DependsOn exC3.computed "mass" "other" := by
    intro h
    have := dependsOnAnyB_complete hr h (List.mem_singleton.mpr rfl)
      (fuelOf exC3.computed) (by decide)
    exact absurd this (by decide)
  have h := claimC7 exC3 "other" (Val.prim 1) "volume" "mass"
    { deps := ["width", "height", "depth"], fn := mulVals }
    { deps := ["volume", "density"], fn := mulVals }
    (doSet exC3 [("other", Val.prim 1)]) rfl rfl rfl hnv hnm rfl
  exact ⟨h.1, h.2.1, h.2.2.1, h.2.2.2.1⟩

/-- Claim C8: registering a computed property a that depends on a name b which
already transitively depends on a raises the cyclic-dependency failure; the
registration call returns the failure instead of a store, so the dependency
graph, the prior computed definitions and the state table are untouched. -/
theorem claimC8 (s : Store) (a b : String) (deps : List String)
    (fn : List Val → Val) (r : String → Nat) (hr : RankOK s.computed r)
    (h1 : lookupComputed s.computed a = none)
    (h2 : (s.state.find? (fun p => p.1 = a)).isSome = false)
    (hb : b ∈ deps) (hdep : DependsOn s.computed b a) :
    Store.compute s a deps fn = Except.error StoreError.cyclicDependency := by
  have hfirst : ((lookupComputed s.computed a).isSome
      || (s.state.find? (fun p => p.1 = a)).isSome) = false := by
    rw [h1, h2]
    rfl
  have hcyc : (deps.any (fun d => decide (d = a)
      || dependsOnAnyB s.computed (fuelOf s.computed) d [a])) = true := by
    apply List.any_eq_true.mpr
    refine ⟨b, hb, ?_⟩
    apply Bool.or_eq_true_iff.mpr
    refine Or.inr ?_
    apply dependsOnAnyB_complete hr hdep (List.mem_singleton.mpr rfl)
    rcases Option.isSome_iff_exists.mp hdep.isComputed with ⟨db, hdb⟩
    have := (rankOK_lookup hr hdb).1
    unfold fuelOf
    omega
  simp [Store.compute, hfirst, hcyc]

/-- Witness for C8: the store whose computed b forward-references the fresh
name a; registering a depending on b is rejected as cyclic. -/
theorem claimC8_witness :
    Store.compute exG1 "a" ["b"] oneFn = Except.error StoreError.cyclicDependency :=
  claimC8 exG1 "a" "b" ["b"] oneFn rankW (by decide) rfl (by decide) (by decide)
    (DependsOn.direct rfl (by decide))

/-- Claim C9: observer failures are isolated and aggregated — the dispatch
loop delivers every scheduled invocation regardless of which callbacks fail,
the failures are exactly the failing identifiers in dispatch order, and after
an accepted cycle they are re-raised once to the caller (and only when some
dispatched callback failed); in the concrete two-observer example the failure
of the first callback still lets the second be invoked, and the one failure is
surfaced once. -/
theorem claimC9 :
    (∀ (failing : Nat → Bool) (evts : List Event),
        (runDispatch failing evts).1 = evts)
    ∧ (∀ (failing : Nat → Bool) (evts : List Event),
        (runDispatch failing evts).2 = (evts.map Event.cb).filter failing)
    ∧ (∀ (failing : Nat → Bool) (s : Store) (patch : List (String × Val)) (out : SetOut),
        Store.set s patch = Except.ok out →
          ((runDispatch failing out.events).2 = [] →
            setChecked failing s patch = Except.ok (out, out.events))
          ∧ ((runDispatch failing out.events).2 ≠ [] →
            setChecked failing s patch
              = Except.error (StoreError.observerCallback (runDispatch failing out.events).2)))
    ∧ ((doSet exD2 [("x", Val.prim 1)]).events.length = 2
        ∧ (runDispatch failD (doSet exD2 [("x", Val.prim 1)]).events).1
            = (doSet exD2 [("x", Val.prim 1)]).events
        ∧ setChecked failD exD2 [("x", Val.prim 1)]
            = Except.error (StoreError.observerCallback [0])) := by
  refine ⟨runDispatch_delivers, runDispatch_errors, ?_, by decide, ?_, rfl⟩
  · intro failing s patch out hset
    constructor
    · intro hnil
      simp [setChecked, hset, hnil, runDispatch_delivers]
    · intro hne
      cases h2 : (runDispatch failing out.events).2 with
      | nil => exact absurd h2 hne
      | cons e rest =>
        simp [setChecked, hset, h2]
  · exact runDispatch_delivers failD _

/-- Witness for C9: the error-surfacing part applied to the two-observer
example where the first callback fails. -/
theorem claimC9_witness :
    setChecked failD exD2 [("x", Val.prim 1)]
      = Except.error (StoreError.observerCallback
          (runDispatch failD (doSet exD2 [("x", Val.prim 1)]).events).2) :=
  (claimC9.2.2.1 failD exD2 [("x", Val.prim 1)]
    (doSet exD2 [("x", Val.prim 1)]) rfl).2 (by decide)
